import Mathlib

/-!
Verification development for the S3 file-manager repository
(`app.py` and `utils/s3_advanced.py`).

Python strings are embedded as `List Char`; the S3 object store is a list
of records `S3Obj` (key, size, last-modified).  The embedding follows the
source line by line: `format_path` embeds `S3Manager.format_path` /
`S3AdvancedManager._format_path`, `delete_object` embeds
`S3Manager.delete_object` (with the S3 listing-page size as an explicit
parameter, since `list_objects_v2` returns at most one page per call),
`rename_object` embeds `S3AdvancedManager.rename_object`,
`search_files` embeds `S3AdvancedManager.search_files` (the paginator is
embedded as chunking of the key list), and `format_size` embeds the size
formatter over exact rationals (the Python float divisions by 1024 are
exact binary scalings at the magnitudes the claims mention).
-/

set_option maxHeartbeats 1000000

abbrev Str := List Char

/-- Python `s.lstrip(c)` for a single character: drop leading `c`s. -/
def lstripChar (c : Char) (s : Str) : Str := s.dropWhile (fun a => a == c)

/-- Python `s.rstrip(c)` for a single character: drop trailing `c`s. -/
def rstripChar (c : Char) (s : Str) : Str := (lstripChar c (s.reverse)).reverse

/-- Python `s.strip(c)` for a single character: drop both ends. -/
def stripChar (c : Char) (s : Str) : Str := rstripChar c (lstripChar c s)

/-- Step `if not path.startswith(self.app_prefix): path = f"{app_prefix}/{path}"`
of the path formatter. -/
def rootJoin (root q : Str) : Str :=
  if root.isPrefixOf q then q else root ++ '/' :: q

/-- Step `if not path.endswith("/"): path += "/"` of the path formatter. -/
def withSlash (q : Str) : Str :=
  if q.getLast? = some '/' then q else q ++ ['/']

/-- Embeds `S3Manager.format_path` (`app.py` 106-122), identical to
`S3AdvancedManager._format_path` (`s3_advanced.py` 325-338):
empty input maps to `root ++ "/"`; otherwise strip slashes from both ends,
prepend `root ++ "/"` unless the result already starts with `root`, and
ensure a trailing slash.  `root` is the configured `app_prefix` (default
`'streamlit-app'`). -/
def format_path (root p : Str) : Str :=
  if p = [] then root ++ ['/']
  else withSlash (rootJoin root (stripChar '/' p))

example : format_path "streamlit-app".data "docs".data = "streamlit-app/docs/".data := by decide
example : format_path "streamlit-app".data [] = "streamlit-app/".data := by decide
example : format_path "streamlit-app".data "/a/b//".data = "streamlit-app/a/b/".data := by decide
example : format_path "streamlit-app".data "streamlit-apple".data = "streamlit-apple/".data := by decide

/-- Python `s.split(c)` for a single-character separator:
`"".split('/') = [""]`, `"a/b".split('/') = ["a","b"]`, `"a/".split('/') = ["a",""]`. -/
def splitOnChar (c : Char) : Str → List Str
  | [] => [[]]
  | a :: as =>
    let r := splitOnChar c as
    if a = c then [] :: r
    else
      match r with
      | [] => [[a]]
      | h :: t => (a :: h) :: t

/-- Python `c.join(xs)` for a single-character separator. -/
def joinWith (c : Char) : List Str → Str
  | [] => []
  | [x] => x
  | x :: y :: xs => x ++ c :: joinWith c (y :: xs)

example : splitOnChar '/' "a/b".data = ["a".data, "b".data] := by decide
example : splitOnChar '/' "".data = [[]] := by decide
example : splitOnChar '/' "/a/".data = [[], "a".data, []] := by decide
example : joinWith '/' ["root".data, "a".data] = "root/a".data := by decide

/-- Python `key.split('/')[-1]`: the final `/`-separated segment of a key. -/
def lastSegment (k : Str) : Str := (splitOnChar '/' k).getLastD []

/-- Python `s.lower()` (ASCII is what the repository's keys use). -/
def toLowerStr (s : Str) : Str := s.map Char.toLower

/-- An object stored in the bucket: its key, its reported size in bytes and
its last-modified timestamp (rendered as a string; copies preserve both). -/
structure S3Obj where
  key : Str
  size : Nat
  modified : Str
deriving DecidableEq

/-- The bucket's contents (all keys live in one flat namespace). -/
abbrev S3Store := List S3Obj

/-- All objects whose key starts with `p` (what `list_objects_v2` with
`Prefix=p` and no delimiter enumerates across pages). -/
def objectsUnder (s : S3Store) (p : Str) : List S3Obj :=
  s.filter (fun o => p.isPrefixOf o.key)

/-- The keys of all objects under the given listing root. -/
def keysUnder (s : S3Store) (p : Str) : List Str :=
  (objectsUnder s p).map S3Obj.key

/-- All keys in the store. -/
def keysOf (s : S3Store) : List Str := s.map S3Obj.key

/-- `head_object` / lookup of a key in the store. -/
def getObj (s : S3Store) (k : Str) : Option S3Obj :=
  s.find? (fun o => o.key == k)

/-- `delete_object(Key=k)`: removes the object at key `k` (no-op if absent). -/
def delete_key (s : S3Store) (k : Str) : S3Store :=
  s.filter (fun o => o.key != k)

/-- `copy_object(CopySource=src, Key=dst)`: writes a copy of the object at
`src` under the key `dst` (overwriting `dst`); no-op if `src` is absent. -/
def copy_object (s : S3Store) (src dst : Str) : S3Store :=
  match s.find? (fun o => o.key == src) with
  | some o => (delete_key s dst) ++ [{ o with key := dst }]
  | none => s

/-- A single `list_objects_v2` response: at most `maxKeys` keys under `p`
(the real service caps a page at 1000 keys). -/
def listPageKeys (s : S3Store) (p : Str) (maxKeys : Nat) : List Str :=
  (keysUnder s p).take maxKeys

/-- Embeds `S3Manager.delete_object` (`app.py` 229-264).  For a
slash-terminated key the source issues ONE `list_objects_v2` call (it does
not paginate), so only the first listing page — at most `maxKeys` keys — is
bulk-deleted; otherwise the single key is deleted. -/
def delete_object (s : S3Store) (maxKeys : Nat) (objectPath : Str) : S3Store :=
  if objectPath.getLast? = some '/' then
    (listPageKeys s objectPath maxKeys).foldl delete_key s
  else
    delete_key s objectPath

/-- Python `old_key.replace(old, rep, 1)`: replace the first occurrence of
`old` in the key (in `rename_object` the listed key always starts with the
old prefix, so this rewrites the leading prefix). -/
def replaceFirst (s pat rep : Str) : Str :=
  if pat.isPrefixOf s then rep ++ s.drop pat.length
  else
    match s with
    | [] => []
    | c :: cs => c :: replaceFirst cs pat rep

example : replaceFirst "root/a/x".data "root/a/".data "root/b/".data = "root/b/x".data := by decide

/-- The sibling path `rename_object` computes (`s3_advanced.py` 28-36):
`'/'.join(old_path.rstrip('/').split('/')[:-1])` joined with the new name. -/
def renameNewPath (old_path new_name : Str) : Str :=
  let parts := splitOnChar '/' (rstripChar '/' old_path)
  let parent := joinWith '/' parts.dropLast
  if parent ≠ [] then parent ++ '/' :: new_name else new_name

/-- One iteration of the folder-rename loop (`s3_advanced.py` 49-66):
copy the listed key to its rewritten key, then delete the original. -/
def rename_step (old_path np : Str) (st : S3Store) (k : Str) : S3Store :=
  delete_key (copy_object st k (replaceFirst k old_path np)) k

/-- Embeds `S3AdvancedManager.rename_object` (`s3_advanced.py` 22-84).
The paginated listing of the folder is embedded as the snapshot of keys
under the old prefix; each is copied to the rewritten key and deleted. -/
def rename_object (s : S3Store) (old_path new_name : Str) : S3Store :=
  let np := renameNewPath old_path new_name
  if old_path.getLast? = some '/' then
    (keysUnder s old_path).foldl (rename_step old_path (np ++ ['/'])) s
  else
    delete_key (copy_object s old_path np) old_path

/-- The rewritten key of a child of a renamed folder: new prefix plus the
suffix of the child key after the old prefix. -/
def movedKey (old_path np k : Str) : Str := np ++ k.drop old_path.length

/-- The rewritten key of a child `k` of folder `old_path` after
`rename_object old_path new_name`. -/
def renamedChildKey (old_path new_name k : Str) : Str :=
  movedKey old_path (renameNewPath old_path new_name ++ ['/']) k

/-- Python `f"{q:.1f}"` for a nonnegative rational: one decimal place,
rounding to nearest (the values the claims mention have exact decimals, so
no tie-breaking subtlety arises). -/
def fmt1 (q : ℚ) : Str :=
  (Nat.toDigits 10 ((round (q * 10)).toNat / 10)) ++
    '.' :: (Nat.toDigits 10 ((round (q * 10)).toNat % 10))

/-- The unit list the formatter's `for` loop walks (`PB` is the fallthrough). -/
def sizeUnits : List Str := ["B".data, "KB".data, "MB".data, "GB".data, "TB".data]

/-- The `for unit in [...]` loop of `format_size` (`app.py` 293-299, identical
to `_format_size` in `s3_advanced.py` 340-346): divide by 1024 until the value
drops below 1024, else fall through to `PB`.  Arithmetic is over exact
rationals; the Python float divisions by 1024 are exact binary scalings at all
magnitudes the claims mention. -/
def sizeLoop : ℚ → List Str → Str
  | q, [] => fmt1 q ++ ' ' :: "PB".data
  | q, u :: us => if q < 1024 then fmt1 q ++ ' ' :: u else sizeLoop (q / 1024) us

/-- Embeds `S3Manager.format_size` / `S3AdvancedManager._format_size`. -/
def format_size (q : ℚ) : Str := sizeLoop q sizeUnits

/-- Fuel-indexed chunking (fuel bounds the recursion depth; `n` is the page
size: each page is one element plus the next `n - 1`). -/
def chunkPagesF {α : Type} (n : Nat) : Nat → List α → List (List α)
  | _, [] => []
  | 0, l => [l]
  | fuel + 1, a :: l => (a :: l.take (n - 1)) :: chunkPagesF n fuel (l.drop (n - 1))

/-- The pages the `list_objects_v2` paginator yields for a key list:
consecutive chunks of at most `n` keys (`n = 1000` for the real service). -/
def chunkPages {α : Type} (n : Nat) (l : List α) : List (List α) :=
  chunkPagesF n l.length l

example : chunkPages 2 [1, 2, 3, 4, 5] = [[1, 2], [3, 4], [5]] := by decide

/-- Python `sub in s` on strings: substring test. -/
def isSubstring (pat : Str) : Str → Bool
  | [] => pat.isPrefixOf []
  | s@(_ :: cs) => pat.isPrefixOf s || isSubstring pat cs

example : isSubstring "epor".data "Report".data = true := by decide
example : isSubstring "x".data "Report".data = false := by decide
example : isSubstring [] "abc".data = true := by decide

/-- A result record built by `search_files` (`s3_advanced.py` 282-288). -/
structure SearchHit where
  name : Str
  path : Str
  etype : Str
  sizeStr : Str
  modified : Str
deriving DecidableEq

/-- The result record for one matching object. -/
def mkHit (o : S3Obj) : SearchHit :=
  { name := lastSegment o.key
    path := o.key
    etype := if o.key.getLast? = some '/' then "folder".data else "file".data
    sizeStr := format_size (o.size : ℚ)
    modified := o.modified }

/-- The listing root `search_files` resolves (`s3_advanced.py` 259-263). -/
def searchRootOf (root path : Str) : Str :=
  if path ≠ [] then format_path root path else root ++ ['/']

/-- Embeds `S3AdvancedManager.search_files` (`s3_advanced.py` 254-294):
paginate every key under the resolved root (no delimiter, so unbounded
depth), keep those whose final segment contains the lowercased term, and
accumulate the result records page by page.  `pageSize` is the service's
listing page size. -/
def search_files (s : S3Store) (root : Str) (pageSize : Nat) (term path : Str) :
    List SearchHit :=
  let tl := toLowerStr term
  (chunkPages pageSize (objectsUnder s (searchRootOf root path))).foldl
    (fun acc page =>
      acc ++ (page.filter
        (fun o => isSubstring tl (toLowerStr (lastSegment o.key)))).map mkHit)
    []

/-- A request the manager sends to the S3 service. -/
inductive S3Req
  | headReq (k : Str)
  | getReq (k : Str)
deriving DecidableEq

/-- A `head_object` response: the fields `get_file_metadata` and
`get_file_preview` read.  `contentType` / `storageClass` are `none` when the
service omits them (Python `response.get(...)` with a default). -/
structure HeadResp where
  contentLength : Nat
  contentType : Option Str
  lastModified : Str
  etag : Str
  storageClass : Option Str
  userMeta : List (Str × Str)
deriving DecidableEq

/-- The metadata dictionary `get_file_metadata` builds (`s3_advanced.py`
304-317).  `mime_type` is present only when `mimetypes.guess_type` returned
a type for the filename. -/
structure FileMeta where
  size : Nat
  formattedSize : Str
  contentType : Str
  lastModified : Str
  etag : Str
  storageClass : Str
  userMeta : List (Str × Str)
  mimeType : Option Str
deriving DecidableEq

/-- Embeds `S3AdvancedManager.get_file_metadata` (`s3_advanced.py` 296-323).
`hd` is the service's `head_object` (`none` = the call raised), `guess` is
the standard library's `mimetypes.guess_type` (external to the repository,
keyed on the filename).  Returns the metadata (or `none` for the error
dictionary) together with the list of requests issued. -/
def get_file_metadata (hd : Str → Option HeadResp) (guess : Str → Option Str)
    (k : Str) : Option FileMeta × List S3Req :=
  match hd k with
  | none => (none, [S3Req.headReq k])
  | some r =>
      (some { size := r.contentLength
              formattedSize := format_size (r.contentLength : ℚ)
              contentType := r.contentType.getD "Unknown".data
              lastModified := r.lastModified
              etag := stripChar '"' r.etag
              storageClass := r.storageClass.getD "STANDARD".data
              userMeta := r.userMeta
              mimeType := guess k },
       [S3Req.headReq k])

/-- Embeds the metadata display at `app.py` 895:
`metadata.get('mime_type', metadata['content_type'])`. -/
def displayedMimeType (m : FileMeta) : Str := m.mimeType.getD m.contentType

/-- Object bodies, abstractly (a byte string). -/
abbrev Bytes := List Nat

/-- The external decoders `get_file_preview` dispatches to, plus the two
service calls it makes.  Each decoder returns `none` when the Python call
raises (which the source converts to the `error` variant). -/
structure PreviewDeps where
  hd : Str → Option HeadResp
  getBody : Str → Option Bytes
  utf8Decode : Bytes → Option Str
  imageThumb : Bytes → Option Bytes
  csvParse : Bytes → Option Nat
  excelParse : Bytes → Option Nat

/-- The text-like extensions (`s3_advanced.py` 116). -/
def textExts : List Str :=
  ["txt".data, "log".data, "md".data, "py".data, "js".data, "html".data,
   "css".data, "json".data, "xml".data, "yaml".data, "yml".data]

/-- The image extensions (`s3_advanced.py` 128). -/
def imageExts : List Str :=
  ["jpg".data, "jpeg".data, "png".data, "gif".data, "bmp".data, "svg".data]

/-- Python `file_path.split('.')[-1].lower()` (`s3_advanced.py` 113). -/
def fileExtension (k : Str) : Str :=
  toLowerStr ((splitOnChar '.' k).getLastD [])

/-- Embeds `S3AdvancedManager.get_file_preview` (`s3_advanced.py` 86-198),
projected to the `'type'` tag of the returned dictionary, together with the
list of service requests issued.  The size gate: if the head-reported size
exceeds `max_size` the `error` variant is returned before any `get_object`. -/
def get_file_preview (d : PreviewDeps) (k : Str) (max_size : Nat) :
    Str × List S3Req :=
  match d.hd k with
  | none => ("error".data, [S3Req.headReq k])
  | some r =>
    if r.contentLength > max_size then ("error".data, [S3Req.headReq k])
    else
      match d.getBody k with
      | none => ("error".data, [S3Req.headReq k, S3Req.getReq k])
      | some content =>
        let tr := [S3Req.headReq k, S3Req.getReq k]
        let ext := fileExtension k
        if ext ∈ textExts then
          ((match d.utf8Decode content with
            | some _ => "text".data
            | none => "error".data), tr)
        else if ext ∈ imageExts then
          if ext = "svg".data then
            ((match d.utf8Decode content with
              | some _ => "svg".data
              | none => "error".data), tr)
          else
            ((match d.imageThumb content with
              | some _ => "image".data
              | none => "error".data), tr)
        else if ext = "csv".data then
          ((match d.csvParse content with
            | some _ => "csv".data
            | none => "error".data), tr)
        else if ext ∈ ["xlsx".data, "xls".data] then
          ((match d.excelParse content with
            | some _ => "excel".data
            | none => "error".data), tr)
        else if ext = "pdf".data then ("pdf".data, tr)
        else ("unknown".data, tr)

/-- The listing root `S3Manager.list_objects` resolves (`app.py` 130-134). -/
def listObjectsRoot (root p : Str) : Str :=
  if p ≠ [] then format_path root p else root ++ ['/']

/-- The listing root `get_folder_size` passes to the paginator
(`s3_advanced.py` 222-231): it only appends a trailing slash; it does NOT
run the path formatter. -/
def folderSizeRoot (folder_path : Str) : Str :=
  if folder_path.getLast? = some '/' then folder_path else folder_path ++ ['/']


/-! ### Helper lemmas on stripping and prefixes -/

theorem dropWhile_beq_head {c : Char} : ∀ l : Str, (l.dropWhile (fun a => a == c)).head? ≠ some c
  | [] => by simp
  | a :: l => by
    rw [List.dropWhile_cons]
    by_cases h : a = c
    · rw [if_pos (by simp [h])]
      exact dropWhile_beq_head l
    · rw [if_neg (by simp [h])]
      simp [h]

theorem lstripChar_head (c : Char) (l : Str) : (lstripChar c l).head? ≠ some c :=
  dropWhile_beq_head l

theorem lstripChar_of_head {c : Char} {l : Str} (h : l.head? ≠ some c) : lstripChar c l = l := by
  cases l with
  | nil => rfl
  | cons a t =>
    have ha : a ≠ c := fun hac => h (by simp [hac])
    simp [lstripChar, List.dropWhile_cons, ha]

theorem rstripChar_getLast (c : Char) (l : Str) : (rstripChar c l).getLast? ≠ some c := by
  rw [rstripChar, List.getLast?_reverse]
  exact lstripChar_head c l.reverse

theorem rstripChar_of_getLast {c : Char} {l : Str} (h : l.getLast? ≠ some c) :
    rstripChar c l = l := by
  rw [rstripChar, lstripChar_of_head (by rwa [List.head?_reverse])]
  exact l.reverse_reverse

theorem rstripChar_concat {c : Char} {r : Str} (h : r.getLast? ≠ some c) :
    rstripChar c (r ++ [c]) = r := by
  rw [rstripChar, List.reverse_append, List.reverse_singleton, List.singleton_append,
    lstripChar, List.dropWhile_cons, if_pos (by simp)]
  have : lstripChar c r.reverse = r.reverse :=
    lstripChar_of_head (by rwa [List.head?_reverse])
  rw [lstripChar] at this
  rw [this, List.reverse_reverse]

theorem lstripChar_suffix (c : Char) (l : Str) : lstripChar c l <:+ l :=
  List.dropWhile_suffix _

theorem rstripChar_isPre (c : Char) (l : Str) : rstripChar c l <+: l := by
  rw [← List.reverse_suffix, rstripChar, List.reverse_reverse]
  exact lstripChar_suffix c l.reverse

theorem head?_of_pre {l₁ l₂ : Str} (h : l₁ <+: l₂) (hne : l₁ ≠ []) : l₂.head? = l₁.head? := by
  obtain ⟨t, rfl⟩ := h
  exact List.head?_append_of_ne_nil l₁ hne

theorem stripChar_head (c : Char) (s : Str) : (stripChar c s).head? ≠ some c := by
  rw [stripChar]
  by_cases h : rstripChar c (lstripChar c s) = []
  · simp [h]
  · rw [← head?_of_pre (rstripChar_isPre c (lstripChar c s)) h]
    exact lstripChar_head c s

theorem stripChar_getLast (c : Char) (s : Str) : (stripChar c s).getLast? ≠ some c :=
  rstripChar_getLast c (lstripChar c s)

theorem isPrefixOf_iff {l₁ l₂ : Str} : l₁.isPrefixOf l₂ = true ↔ l₁ <+: l₂ :=
  List.isPrefixOf_iff_prefix

/-! ### Structure of `format_path` outputs -/

theorem withSlash_getLast (q : Str) : (withSlash q).getLast? = some '/' := by
  rw [withSlash]
  split
  · assumption
  · exact List.getLast?_concat q

theorem pre_withSlash (q : Str) : q <+: withSlash q := by
  rw [withSlash]
  split
  · exact List.prefix_refl q
  · exact List.prefix_append q ['/']

theorem rootJoin_rooted (root q : Str) : root <+: rootJoin root q := by
  rw [rootJoin]
  split
  · exact isPrefixOf_iff.mp (by assumption)
  · exact List.prefix_append root _

theorem format_path_getLast (root p : Str) : (format_path root p).getLast? = some '/' := by
  rw [format_path]
  split
  · exact List.getLast?_concat root
  · exact withSlash_getLast _

theorem format_path_rooted (root p : Str) : root <+: format_path root p := by
  rw [format_path]
  split
  · exact List.prefix_append root ['/']
  · exact (rootJoin_rooted root _).trans (pre_withSlash _)

theorem format_path_ne_nil (root p : Str) : format_path root p ≠ [] := by
  intro h
  have h2 := format_path_getLast root p
  rw [h] at h2
  exact Option.noConfusion h2

/-- The canonical shape of a formatter output when the configured root has
no slash at either end (true of the default `'streamlit-app'`):
`r ++ "/"` where `r` is rooted and has no slash at either end. -/
theorem format_path_shape (root : Str) (h1 : root.head? ≠ some '/')
    (h2 : root.getLast? ≠ some '/') (p : Str) :
    ∃ r : Str, format_path root p = r ++ ['/'] ∧ r.getLast? ≠ some '/' ∧
      r.head? ≠ some '/' ∧ root <+: r := by
  rw [format_path]
  by_cases hp : p = []
  · exact ⟨root, by rw [if_pos hp], h2, h1, List.prefix_refl root⟩
  · rw [if_neg hp]
    have hqh : (stripChar '/' p).head? ≠ some '/' := stripChar_head '/' p
    have hql : (stripChar '/' p).getLast? ≠ some '/' := stripChar_getLast '/' p
    rw [rootJoin]
    by_cases hpre : (List.isPrefixOf root (stripChar '/' p)) = true
    · rw [if_pos hpre, withSlash, if_neg hql]
      exact ⟨stripChar '/' p, rfl, hql, hqh, isPrefixOf_iff.mp hpre⟩
    · rw [if_neg hpre]
      have hroot_ne : root ≠ [] := by
        intro hr
        rw [hr] at hpre
        exact hpre (isPrefixOf_iff.mpr List.nil_prefix)
      cases hq : stripChar '/' p with
      | nil =>
        rw [withSlash, if_pos (List.getLast?_concat root)]
        exact ⟨root, rfl, h2, h1, List.prefix_refl root⟩
      | cons a q' =>
        have hlast : (root ++ '/' :: a :: q').getLast? = (a :: q').getLast? := by
          rw [List.getLast?_append_of_ne_nil root (by simp), List.getLast?_cons_cons]
        rw [hq] at hql
        rw [withSlash, if_neg (by rw [hlast]; exact hql)]
        refine ⟨root ++ '/' :: a :: q', rfl, by rw [hlast]; exact hql, ?_,
          List.prefix_append root _⟩
        rw [List.head?_append_of_ne_nil _ hroot_ne]
        exact h1

/-! ### C3: totality and shape of the path formatter -/

/-- C3 (amended): for every root and every input string — including the
empty string and strings that merely begin with the root-prefix characters —
the formatter's output is non-empty, ends with `'/'`, and begins with the
root prefix; no input is rejected (the function is total by construction).
The original claim's stronger guarantee that the output begins with
`root ++ "/"` fails, see the counterexample. -/
theorem c3_format_path_total (root p : Str) :
    format_path root p ≠ [] ∧ (format_path root p).getLast? = some '/' ∧
      root <+: format_path root p :=
  ⟨format_path_ne_nil root p, format_path_getLast root p, format_path_rooted root p⟩

/-- C3 counterexample: an input that merely begins with the root-prefix
characters without a following slash is kept as-is by the
`startswith(app_prefix)` test, so the output does not begin with
`root ++ "/"`. -/
theorem c3_counterexample :
    format_path "streamlit-app".data "streamlit-apple".data = "streamlit-apple/".data ∧
      ¬ ("streamlit-app/".data <+: format_path "streamlit-app".data "streamlit-apple".data) := by
  decide

/-! ### C4: idempotence of the path formatter -/

/-- C4 (amended): when the configured root has no slash at either end (as
the default `'streamlit-app'` does), the formatter is idempotent —
`format(format(p)) = format(p)` for every input `p` — and an already-rooted
path that ends in exactly one slash is returned unchanged.  An arbitrary
already-rooted, slash-terminated string need not be a fixed point (see the
counterexample with a doubled trailing slash). -/
theorem c4_format_path_idem (root : Str) (h1 : root.head? ≠ some '/')
    (h2 : root.getLast? ≠ some '/') :
    (∀ p, format_path root (format_path root p) = format_path root p) ∧
    (∀ q, root ≠ [] → (root ++ ['/']) <+: q → q.getLast? = some '/' →
      q.dropLast.getLast? ≠ some '/' → format_path root q = q) := by
  constructor
  · intro p
    obtain ⟨r, hr, hrl, hrh, hroot⟩ := format_path_shape root h1 h2 p
    rw [hr]
    by_cases hrnil : r = []
    · have : root = [] := List.prefix_nil.mp (hrnil ▸ hroot)
      subst hrnil
      subst this
      decide
    · rw [format_path, if_neg (by simp)]
      have hlstrip : lstripChar '/' (r ++ ['/']) = r ++ ['/'] := by
        apply lstripChar_of_head
        rw [List.head?_append_of_ne_nil _ hrnil]
        exact hrh
      have hstrip : stripChar '/' (r ++ ['/']) = r := by
        rw [stripChar, hlstrip]
        exact rstripChar_concat hrl
      rw [hstrip, rootJoin, if_pos (isPrefixOf_iff.mpr hroot), withSlash, if_neg hrl]
  · intro q hroot_ne hq hlast hprev
    have hqne : q ≠ [] := by
      intro h
      rw [h] at hlast
      exact Option.noConfusion hlast
    have hdecomp : q.dropLast ++ ['/'] = q := by
      have h4 : q.getLast hqne = '/' := by
        have h5 := List.getLast?_eq_getLast q hqne
        rw [hlast] at h5
        exact (Option.some_inj.mp h5).symm
      rw [← h4]
      exact List.dropLast_append_getLast hqne
    have hqh : q.head? ≠ some '/' := by
      have hrootq : root <+: q := (List.prefix_append root ['/']).trans hq
      rw [head?_of_pre hrootq hroot_ne]
      exact h1
    have hpre_r : root <+: q.dropLast := by
      have hlen : root.length + 1 ≤ q.length := by
        have h6 := hq.length_le
        simpa using h6
      have htake : root = q.take root.length :=
        List.prefix_iff_eq_take.mp ((List.prefix_append root ['/']).trans hq)
      rw [List.prefix_iff_eq_take, List.dropLast_eq_take, List.take_take,
        min_eq_left (by omega)]
      exact htake
    rw [format_path, if_neg hqne]
    have hstrip : stripChar '/' q = q.dropLast := by
      conv_lhs => rw [stripChar, lstripChar_of_head hqh, ← hdecomp]
      exact rstripChar_concat hprev
    rw [hstrip, rootJoin, if_pos (isPrefixOf_iff.mpr hpre_r), withSlash, if_neg hprev]
    exact hdecomp

/-- C4 witness: idempotence instantiated at the default root and a concrete
messy input. -/
theorem c4_witness :
    ("streamlit-app".data.head? ≠ some '/') ∧
      ("streamlit-app".data.getLast? ≠ some '/') ∧
      format_path "streamlit-app".data
          (format_path "streamlit-app".data "/reports//2024/".data) =
        format_path "streamlit-app".data "/reports//2024/".data :=
  ⟨by decide, by decide,
    (c4_format_path_idem "streamlit-app".data (by decide) (by decide)).1 "/reports//2024/".data⟩

/-- C4 counterexample: `"streamlit-app//"` is already rooted (it begins with
`root ++ "/"`) and already slash-terminated, yet formatting changes it —
refuting the claim that formatting any already-rooted, already-terminated
path returns it unchanged. -/
theorem c4_counterexample :
    ("streamlit-app/".data <+: "streamlit-app//".data) ∧
      ("streamlit-app//".data : Str).getLast? = some '/' ∧
      format_path "streamlit-app".data "streamlit-app//".data ≠ "streamlit-app//".data := by
  decide

/-! ### C5: the prefixes handed to the gateway -/

/-- C5 (amended): the listing operation always passes a prefix that is
rooted and slash-terminated, for every input; the folder-size operation
always passes a slash-terminated prefix, but that prefix is rooted only
when the supplied folder path already is — `get_folder_size` does not run
the path formatter (its in-app callers pass keys taken from listings, which
are rooted). -/
theorem c5_gateway_roots (root p fp : Str) :
    (root <+: listObjectsRoot root p ∧ (listObjectsRoot root p).getLast? = some '/') ∧
      (folderSizeRoot fp).getLast? = some '/' ∧
      (root <+: fp → root <+: folderSizeRoot fp) := by
  refine ⟨⟨?_, ?_⟩, ?_, ?_⟩
  · rw [listObjectsRoot]
    split
    · exact format_path_rooted root p
    · exact List.prefix_append root ['/']
  · rw [listObjectsRoot]
    split
    · exact format_path_getLast root p
    · exact List.getLast?_concat root
  · rw [folderSizeRoot]
    split
    · assumption
    · exact List.getLast?_concat fp
  · intro h
    rw [folderSizeRoot]
    split
    · exact h
    · exact h.trans (List.prefix_append fp ['/'])

/-- C5 witness: with the default root, a rooted folder path stays rooted
through the folder-size prefix computation, and the listing prefix for a
relative path is rooted and slash-terminated. -/
theorem c5_witness :
    ("streamlit-app".data <+: "streamlit-app/docs".data) ∧
      "streamlit-app".data <+: folderSizeRoot "streamlit-app/docs".data :=
  ⟨by decide,
    (c5_gateway_roots "streamlit-app".data [] "streamlit-app/docs".data).2.2 (by decide)⟩

/-- C5 counterexample: `get_folder_size` called with the un-rooted input
`"docs"` passes the prefix `"docs/"` to the gateway's paginator — not
prefix-rooted, refuting the claim for every operation and every input. -/
theorem c5_counterexample :
    folderSizeRoot "docs".data = "docs/".data ∧
      ¬ ("streamlit-app".data <+: folderSizeRoot "docs".data) := by
  decide

/-! ### C1: folder delete is not paginated -/

/-- The C1 failing configuration: a folder holding more objects than fit in
one listing page.  The listing page size is scaled down to `1` (the real
service pages at 1000 keys; a folder of 1001 objects behaves identically). -/
def c1Store : S3Store :=
  [⟨"streamlit-app/f/a.txt".data, 1, "2024-01-01 00:00:00".data⟩,
   ⟨"streamlit-app/f/b.txt".data, 2, "2024-01-01 00:00:00".data⟩]

/-- C1 (code bug): `delete_object` issues a single `list_objects_v2` call
with no pagination (`app.py` 238-241), even though its own comments say it
lists and deletes ALL objects in the folder and every other multi-object
operation in the repository uses the paginator.  With two objects under the
folder and page size one, the bulk delete removes only the first page and
the operation still reports success: a key remains under the prefix. -/
theorem c1_delete_misses_second_page :
    keysUnder (delete_object c1Store 1 "streamlit-app/f/".data) "streamlit-app/f/".data =
      ["streamlit-app/f/b.txt".data] := by
  decide

/-! ### C9: the size formatter -/

theorem fmt1_zero : fmt1 0 = "0.0".data := by
  rw [fmt1]
  norm_num
  decide

theorem fmt1_one : fmt1 1 = "1.0".data := by
  rw [fmt1]
  norm_num [round_eq]
  decide

theorem fmt1_1023 : fmt1 1023 = "1023.0".data := by
  rw [fmt1]
  norm_num [round_eq]
  decide

/-- C9: the binary size formatter maps `0 ↦ "0.0 B"`, `1023 ↦ "1023.0 B"`,
`1024 ↦ "1.0 KB"`, `1048576 ↦ "1.0 MB"`, and every value of at least
`1024^5` falls through all five units and renders in `PB` (there is no unit
beyond `PB`), with one decimal place throughout. -/
theorem c9_format_size :
    format_size 0 = "0.0 B".data ∧
    format_size 1023 = "1023.0 B".data ∧
    format_size 1024 = "1.0 KB".data ∧
    format_size 1048576 = "1.0 MB".data ∧
    ∀ q : ℚ, (1024:ℚ)^5 ≤ q → format_size q = fmt1 (q / 1024^5) ++ ' ' :: "PB".data := by
  refine ⟨?_, ?_, ?_, ?_, ?_⟩
  · simp only [format_size, sizeUnits, sizeLoop]
    rw [if_pos (by norm_num), fmt1_zero]
    decide
  · simp only [format_size, sizeUnits, sizeLoop]
    rw [if_pos (by norm_num), fmt1_1023]
    decide
  · simp only [format_size, sizeUnits, sizeLoop]
    rw [if_neg (by norm_num), if_pos (by norm_num)]
    norm_num
    rw [fmt1_one]
    decide
  · simp only [format_size, sizeUnits, sizeLoop]
    rw [if_neg (by norm_num), if_neg (by norm_num)]
    norm_num
    rw [fmt1_one]
    decide
  · intro q hq
    have key : ∀ c : ℚ, 0 < c → 1024 * c ≤ 1024 ^ 5 → ¬ (q / c < 1024) := by
      intro c hc hcle
      rw [not_lt, le_div_iff₀ hc]
      linarith
    have h1 : ¬ (q < 1024) := by
      have h := key 1 one_pos (by norm_num)
      simpa using h
    have h2 : ¬ (q / 1024 < 1024) := key 1024 (by norm_num) (by norm_num)
    have h3 : ¬ (q / 1024 / 1024 < 1024) := by
      have e : q / 1024 / 1024 = q / (1048576 : ℚ) := by ring
      rw [e]
      exact key 1048576 (by norm_num) (by norm_num)
    have h4 : ¬ (q / 1024 / 1024 / 1024 < 1024) := by
      have e : q / 1024 / 1024 / 1024 = q / (1073741824 : ℚ) := by ring
      rw [e]
      exact key 1073741824 (by norm_num) (by norm_num)
    have h5 : ¬ (q / 1024 / 1024 / 1024 / 1024 < 1024) := by
      have e : q / 1024 / 1024 / 1024 / 1024 = q / (1099511627776 : ℚ) := by ring
      rw [e]
      exact key 1099511627776 (by norm_num) (by norm_num)
    simp only [format_size, sizeUnits, sizeLoop]
    rw [if_neg h1, if_neg h2, if_neg h3, if_neg h4, if_neg h5]
    have e : q / 1024 / 1024 / 1024 / 1024 / 1024 = q / 1024 ^ 5 := by ring
    rw [e]

/-- C9 witness: the PB clause applied at exactly `1024^5` bytes. -/
theorem c9_witness :
    ((1024:ℚ)^5 ≤ (1024:ℚ)^5) ∧
      format_size ((1024:ℚ)^5) = fmt1 ((1024:ℚ)^5 / 1024^5) ++ ' ' :: "PB".data :=
  ⟨le_refl _, c9_format_size.2.2.2.2 ((1024:ℚ)^5) (le_refl _)⟩

/-! ### C6: metadata — one head request, mime-type preference -/

/-- C6 (amended): for every key, the metadata operation issues exactly one
head request, and the reported (displayed) mime-type is the LOCAL
filename-extension guess when the guess yields a type, falling back to the
store's reported content-type (defaulting to `"Unknown"` when the store
reports none).  The original claim's preference order — store value first —
is refuted by the counterexample. -/
theorem c6_metadata (hd : Str → Option HeadResp) (guess : Str → Option Str)
    (k : Str) (r : HeadResp) (h : hd k = some r) :
    (get_file_metadata hd guess k).2 = [S3Req.headReq k] ∧
    ∀ md, (get_file_metadata hd guess k).1 = some md →
      displayedMimeType md = (guess k).getD (r.contentType.getD "Unknown".data) := by
  constructor
  · simp only [get_file_metadata, h]
  · intro md hmd
    simp only [get_file_metadata, h] at hmd
    injection hmd with h2
    subst h2
    rfl

/-- A concrete `head_object` gateway for the C6 instances: every key reports
a stored content-type of `application/octet-stream`. -/
def mdHead : Str → Option HeadResp :=
  fun _ => some ⟨2048, some "application/octet-stream".data,
    "2024-01-02 03:04:05".data, "\"abc123\"".data, none, []⟩

/-- A concrete `mimetypes.guess_type`, mirroring the standard library's
table on the one key used: a `.txt` filename guesses `text/plain`. -/
def mdGuess : Str → Option Str :=
  fun k => if k = "streamlit-app/notes.txt".data then some "text/plain".data else none

/-- C6 witness: the single-head-request conclusion at a concrete gateway. -/
theorem c6_witness :
    (mdHead "streamlit-app/notes.txt".data =
      some ⟨2048, some "application/octet-stream".data,
        "2024-01-02 03:04:05".data, "\"abc123\"".data, none, []⟩) ∧
      (get_file_metadata mdHead mdGuess "streamlit-app/notes.txt".data).2 =
        [S3Req.headReq "streamlit-app/notes.txt".data] :=
  ⟨rfl, (c6_metadata mdHead mdGuess "streamlit-app/notes.txt".data _ rfl).1⟩

/-- C6 counterexample: the store reports `application/octet-stream` (present),
the extension guess yields `text/plain`, and the operation reports
`text/plain` — the local guess, not the store's value, is preferred
(`metadata.get('mime_type', metadata['content_type'])`, `app.py` 895). -/
theorem c6_counterexample :
    ((mdHead "streamlit-app/notes.txt".data).map HeadResp.contentType) =
        some (some "application/octet-stream".data) ∧
      mdGuess "streamlit-app/notes.txt".data = some "text/plain".data ∧
      ((get_file_metadata mdHead mdGuess "streamlit-app/notes.txt".data).1.map
          displayedMimeType) = some "text/plain".data ∧
      "text/plain".data ≠ "application/octet-stream".data := by
  refine ⟨rfl, rfl, rfl, by decide⟩

/-! ### C7: preview size gate -/

/-- C7: for every key whose head-reported size exceeds `max_size` (the
source's default is `5 * 1024 * 1024`), preview returns the `error` variant
having issued only the head request — the body is never fetched; and
whenever the reported size is within the limit, the body request is issued
(the trace is exactly head then get). -/
theorem c7_preview_size_gate (d : PreviewDeps) (k : Str) (r : HeadResp)
    (m : Nat) (h : d.hd k = some r) :
    (r.contentLength > m →
      get_file_preview d k m = ("error".data, [S3Req.headReq k])) ∧
    (r.contentLength ≤ m →
      (get_file_preview d k m).2 = [S3Req.headReq k, S3Req.getReq k]) := by
  constructor
  · intro hgt
    simp only [get_file_preview, h]
    rw [if_pos hgt]
  · intro hle
    simp only [get_file_preview, h]
    rw [if_neg (not_lt.mpr hle)]
    cases hb : d.getBody k with
    | none => rfl
    | some content =>
      repeat' split
      all_goals rfl

/-- A concrete dependency bundle: every key head-reports 6 MiB. -/
def previewDeps6MiB : PreviewDeps :=
  { hd := fun _ => some ⟨6291456, none, [], [], none, []⟩
    getBody := fun _ => none
    utf8Decode := fun _ => none
    imageThumb := fun _ => none
    csvParse := fun _ => none
    excelParse := fun _ => none }

/-- C7 witness: a 6 MiB object with the default 5 MiB limit yields the
`error` variant with only the head request issued. -/
theorem c7_witness :
    (6291456 > 5 * 1024 * 1024) ∧
      get_file_preview previewDeps6MiB "streamlit-app/big.bin".data (5 * 1024 * 1024) =
        ("error".data, [S3Req.headReq "streamlit-app/big.bin".data]) :=
  ⟨by norm_num,
    (c7_preview_size_gate previewDeps6MiB "streamlit-app/big.bin".data _ (5 * 1024 * 1024)
      rfl).1 (by norm_num)⟩

/-! ### C8 and C10: search -/

theorem chunkPagesF_flatten {α : Type} (n : Nat) :
    ∀ (fuel : Nat) (l : List α), l.length ≤ fuel → (chunkPagesF n fuel l).flatten = l := by
  intro fuel
  induction fuel with
  | zero =>
    intro l hl
    have : l = [] := List.length_eq_zero.mp (Nat.le_zero.mp hl)
    subst this
    rfl
  | succ fuel ih =>
    intro l hl
    cases l with
    | nil => rfl
    | cons a l' =>
      rw [chunkPagesF, List.flatten_cons, ih (l'.drop (n - 1))
        (le_trans (l'.length_drop (n - 1) ▸ Nat.sub_le _ _) (Nat.le_of_succ_le_succ hl))]
      rw [List.cons_append, List.take_append_drop]

theorem chunkPages_flatten {α : Type} (n : Nat) (l : List α) :
    (chunkPages n l).flatten = l :=
  chunkPagesF_flatten n l.length l (le_refl _)

theorem foldl_append_map {α β : Type} (f : List α → List β) :
    ∀ (pages : List (List α)) (acc : List β),
      pages.foldl (fun a pg => a ++ f pg) acc = acc ++ (pages.map f).flatten := by
  intro pages
  induction pages with
  | nil => intro acc; simp
  | cons p ps ih =>
    intro acc
    rw [List.foldl_cons, ih, List.map_cons, List.flatten_cons, List.append_assoc]

/-- `search_files` collapsed over the pagination: it is exactly the filter
of all objects under the resolved root by the lowercased-final-segment
substring test, rendered through `mkHit`. -/
theorem search_files_eq (s : S3Store) (root : Str) (pageSize : Nat) (term path : Str) :
    search_files s root pageSize term path =
      ((objectsUnder s (searchRootOf root path)).filter
        (fun o => isSubstring (toLowerStr term) (toLowerStr (lastSegment o.key)))).map mkHit := by
  rw [search_files, foldl_append_map
    (fun pg => (pg.filter
      (fun o => isSubstring (toLowerStr term) (toLowerStr (lastSegment o.key)))).map mkHit)]
  rw [List.nil_append]
  have hmm :
      ((chunkPages pageSize (objectsUnder s (searchRootOf root path))).map
          (fun pg => (pg.filter
            (fun o => isSubstring (toLowerStr term) (toLowerStr (lastSegment o.key)))).map
              mkHit)).flatten =
        ((chunkPages pageSize (objectsUnder s (searchRootOf root path))).flatten.filter
          (fun o => isSubstring (toLowerStr term) (toLowerStr (lastSegment o.key)))).map
            mkHit := by
    rw [List.filter_flatten, List.map_flatten, List.map_map]
    rfl
  rw [hmm, chunkPages_flatten]

/-- C8: for every term, path, store and page size, search paginates the
keys under the resolved root at unbounded depth and returns exactly those
keys whose final `/`-separated segment contains the term
case-insensitively — all matches, with no cap inside the search itself. -/
theorem c8_search_exact (s : S3Store) (root : Str) (pageSize : Nat)
    (term path k : Str) :
    (∃ hit ∈ search_files s root pageSize term path, hit.path = k) ↔
      ∃ o ∈ s, o.key = k ∧ (searchRootOf root path) <+: k ∧
        isSubstring (toLowerStr term) (toLowerStr (lastSegment k)) = true := by
  rw [search_files_eq]
  constructor
  · rintro ⟨hit, hmem, hpath⟩
    obtain ⟨o, ho, rfl⟩ := List.mem_map.mp hmem
    obtain ⟨ho2, hpred⟩ := List.mem_filter.mp ho
    obtain ⟨hos, hpre⟩ := List.mem_filter.mp ho2
    have hk : o.key = k := hpath
    subst hk
    exact ⟨o, hos, rfl, isPrefixOf_iff.mp hpre, hpred⟩
  · rintro ⟨o, hos, rfl, hpre, hsub⟩
    refine ⟨mkHit o, List.mem_map.mpr ⟨o, ?_, rfl⟩, rfl⟩
    exact List.mem_filter.mpr ⟨List.mem_filter.mpr ⟨hos, isPrefixOf_iff.mpr hpre⟩, hsub⟩

theorem splitOnChar_ne_nil (c : Char) (s : Str) : splitOnChar c s ≠ [] := by
  cases s with
  | nil => simp [splitOnChar]
  | cons a as =>
    simp only [splitOnChar]
    split
    · simp
    · split <;> simp

theorem splitOnChar_append_sep (c : Char) :
    ∀ s : Str, splitOnChar c (s ++ [c]) = splitOnChar c s ++ [[]]
  | [] => by simp [splitOnChar]
  | a :: as => by
    simp only [List.cons_append, splitOnChar, List.append_eq]
    by_cases h : a = c
    · rw [if_pos h, if_pos h, splitOnChar_append_sep c as]
      rfl
    · rw [if_neg h, if_neg h, splitOnChar_append_sep c as]
      obtain ⟨h0, t0, he⟩ : ∃ h0 t0, splitOnChar c as = h0 :: t0 := by
        cases hsp : splitOnChar c as with
        | nil => exact absurd hsp (splitOnChar_ne_nil c as)
        | cons h0 t0 => exact ⟨h0, t0, rfl⟩
      rw [he]
      rfl

/-- Decomposition of a string by its final character. -/
theorem decomp_of_getLast {l : Str} {c : Char} (h : l.getLast? = some c) :
    l.dropLast ++ [c] = l := by
  have hne : l ≠ [] := by
    intro h2
    rw [h2] at h
    exact Option.noConfusion h
  have h4 : l.getLast hne = c := by
    have h5 := List.getLast?_eq_getLast l hne
    rw [h] at h5
    exact (Option.some_inj.mp h5).symm
  rw [← h4]
  exact List.dropLast_append_getLast hne

/-- A slash-terminated key has an empty final segment. -/
theorem lastSegment_of_slash {k : Str} (h : k.getLast? = some '/') :
    lastSegment k = [] := by
  rw [lastSegment, ← decomp_of_getLast h, splitOnChar_append_sep,
    List.getLastD_eq_getLast?, List.getLast?_concat]
  rfl

/-- C10: for every non-empty search term, no result of `search_files` is a
folder entry: a folder-marker key ends in `'/'`, so its final segment is
empty and cannot contain the non-empty term — the `'folder'` branch of the
result constructor is unreachable. -/
theorem c10_search_no_folder (s : S3Store) (root : Str) (pageSize : Nat)
    (term path : Str) (hterm : term ≠ []) :
    ∀ hit ∈ search_files s root pageSize term path, hit.etype = "file".data := by
  intro hit hmem
  rw [search_files_eq] at hmem
  obtain ⟨o, ho, rfl⟩ := List.mem_map.mp hmem
  obtain ⟨_, hpred⟩ := List.mem_filter.mp ho
  by_cases hk : o.key.getLast? = some '/'
  · exfalso
    rw [lastSegment_of_slash hk] at hpred
    have htl : toLowerStr term = [] := by
      cases htl : toLowerStr term with
      | nil => rfl
      | cons b bs =>
        rw [htl] at hpred
        simp [isSubstring, toLowerStr, List.isPrefixOf] at hpred
    exact hterm (List.map_eq_nil_iff.mp htl)
  · simp [mkHit, hk]

/-- The store for the C10 witness: one file whose name contains the term. -/
def c10Store : S3Store :=
  [⟨"streamlit-app/a/report.csv".data, 10, "2024-01-01 00:00:00".data⟩]

/-- C10 witness: the non-folder conclusion at a concrete store, term and
result entry. -/
theorem c10_witness :
    ("report".data ≠ ([] : Str)) ∧
      (mkHit ⟨"streamlit-app/a/report.csv".data, 10, "2024-01-01 00:00:00".data⟩).etype =
        "file".data :=
  ⟨by decide,
    c10_search_no_folder c10Store "streamlit-app".data 1000 "report".data [] (by decide)
      (mkHit ⟨"streamlit-app/a/report.csv".data, 10, "2024-01-01 00:00:00".data⟩)
      (by rw [search_files_eq]
          exact List.mem_map.mpr
            ⟨⟨"streamlit-app/a/report.csv".data, 10, "2024-01-01 00:00:00".data⟩,
              by decide, rfl⟩)⟩

/-! ### C2: store lemmas -/

theorem getObj_isSome_iff (s : S3Store) (k : Str) :
    (getObj s k).isSome ↔ k ∈ keysOf s := by
  rw [getObj, keysOf, List.find?_isSome]
  constructor
  · rintro ⟨o, ho, hp⟩
    exact List.mem_map.mpr ⟨o, ho, beq_iff_eq.mp hp⟩
  · intro h
    obtain ⟨o, ho, he⟩ := List.mem_map.mp h
    exact ⟨o, ho, beq_iff_eq.mpr he⟩

theorem getObj_of_mem_nodup {s : S3Store} {o : S3Obj}
    (hnd : (keysOf s).Nodup) (ho : o ∈ s) : getObj s o.key = some o := by
  induction s with
  | nil => exact absurd ho (List.not_mem_nil o)
  | cons a t ih =>
    rw [keysOf, List.map_cons, List.nodup_cons] at hnd
    rcases List.mem_cons.mp ho with rfl | hm
    · exact List.find?_cons_of_pos t (by simp)
    · have hne : ¬ ((a.key == o.key) = true) := by
        rw [beq_iff_eq]
        intro he
        exact hnd.1 (he ▸ List.mem_map.mpr ⟨o, hm, rfl⟩)
      rw [getObj, List.find?_cons_of_neg t hne]
      exact ih hnd.2 hm

theorem getObj_delete_self (s : S3Store) (k : Str) :
    getObj (delete_key s k) k = none := by
  rw [getObj, List.find?_eq_none]
  intro o ho
  have h2 := (List.mem_filter.mp ho).2
  rw [bne_iff_ne] at h2
  rw [beq_iff_eq]
  exact h2

theorem find?_filter_ne (t : S3Store) (k x : Str) (h : x ≠ k) :
    List.find? (fun o => o.key == x) (List.filter (fun o => o.key != k) t) =
      List.find? (fun o => o.key == x) t := by
  induction t with
  | nil => rfl
  | cons o t ih =>
    rw [List.filter_cons]
    by_cases hok : o.key = k
    · rw [if_neg (by simp [bne_iff_ne, hok])]
      rw [List.find?_cons_of_neg t (by rw [beq_iff_eq, hok]; exact fun he => h he.symm)]
      exact ih
    · rw [if_pos (by simp [bne_iff_ne, hok])]
      by_cases hox : (o.key == x) = true
      · rw [List.find?_cons_of_pos (List.filter (fun o => o.key != k) t) hox,
          List.find?_cons_of_pos t hox]
      · rw [List.find?_cons_of_neg (List.filter (fun o => o.key != k) t) hox,
          List.find?_cons_of_neg t hox]
        exact ih

theorem getObj_delete_ne (s : S3Store) {k x : Str} (h : x ≠ k) :
    getObj (delete_key s k) x = getObj s x :=
  find?_filter_ne s k x h

theorem getObj_append (s₁ s₂ : S3Store) (k : Str) :
    getObj (s₁ ++ s₂) k = (getObj s₁ k).or (getObj s₂ k) := by
  rw [getObj, getObj, getObj, List.find?_append]

theorem getObj_copy_ne (s : S3Store) (src : Str) {dst x : Str} (hx : x ≠ dst) :
    getObj (copy_object s src dst) x = getObj s x := by
  rw [copy_object]
  cases hf : s.find? (fun o => o.key == src) with
  | none => rfl
  | some o =>
    rw [getObj_append, getObj_delete_ne s hx]
    have h2 : getObj [{ o with key := dst }] x = none := by
      rw [getObj, List.find?_cons_of_neg [] (by rw [beq_iff_eq]; exact fun he => hx he.symm)]
      rfl
    rw [h2, Option.or_none]

theorem getObj_copy_dst {s : S3Store} {src dst : Str} {o : S3Obj}
    (h : getObj s src = some o) :
    getObj (copy_object s src dst) dst = some { o with key := dst } := by
  rw [getObj] at h
  rw [copy_object, h, getObj_append, getObj_delete_self, Option.none_or, getObj,
    List.find?_cons_of_pos [] (by simp)]

/-! ### C2: moved keys and slash-free names -/

theorem pre_append_drop {p k : Str} (h : p <+: k) : p ++ k.drop p.length = k :=
  List.prefix_iff_eq_append.mp h

theorem movedKey_inj {old np k₁ k₂ : Str} (h1 : old <+: k₁) (h2 : old <+: k₂)
    (he : movedKey old np k₁ = movedKey old np k₂) : k₁ = k₂ := by
  rw [movedKey, movedKey] at he
  have hd := List.append_cancel_left he
  rw [← pre_append_drop h1, ← pre_append_drop h2, hd]

/-- Two distinct slash-free names followed by a slash are prefix-incomparable,
whatever comes after the slash. -/
theorem no_prefix_names : ∀ (x y : Str), (∀ c ∈ x, c ≠ '/') → (∀ c ∈ y, c ≠ '/') →
    x ≠ y → ∀ u v : Str, ¬ (x ++ '/' :: u <+: y ++ '/' :: v)
  | [], [], _, _, hxy => absurd rfl hxy
  | [], b :: _, _, hy, _ => by
    intro u v h
    rw [List.nil_append, List.cons_append, List.cons_prefix_cons] at h
    exact hy b (by simp) h.1.symm
  | a :: _, [], hx, _, _ => by
    intro u v h
    rw [List.cons_append, List.nil_append, List.cons_prefix_cons] at h
    exact hx a (by simp) h.1
  | a :: x', b :: y', hx, hy, hxy => by
    intro u v h
    rw [List.cons_append, List.cons_append, List.cons_prefix_cons] at h
    obtain ⟨hab, h2⟩ := h
    subst hab
    have hxy' : x' ≠ y' := fun he => hxy (by rw [he])
    exact no_prefix_names x' y' (fun c hc => hx c (by simp [hc]))
      (fun c hc => hy c (by simp [hc])) hxy' u v h2

/-! ### C2: structure of the computed sibling path -/

theorem joinWith_splitOnChar (c : Char) : ∀ s : Str, joinWith c (splitOnChar c s) = s
  | [] => rfl
  | a :: as => by
    simp only [splitOnChar]
    obtain ⟨h0, t0, he⟩ := List.exists_cons_of_ne_nil (splitOnChar_ne_nil c as)
    by_cases h : a = c
    · rw [if_pos h, he, joinWith, ← he, joinWith_splitOnChar c as, List.nil_append, h]
    · rw [if_neg h, he]
      have hIH := joinWith_splitOnChar c as
      rw [he] at hIH
      cases t0 with
      | nil =>
        rw [joinWith] at hIH
        rw [joinWith, hIH]
      | cons t1 ts =>
        rw [joinWith] at hIH
        rw [joinWith, ← hIH]
        rfl

theorem splitOnChar_no_sep (c : Char) :
    ∀ s : Str, ∀ seg ∈ splitOnChar c s, ∀ a ∈ seg, a ≠ c
  | [] => by
    intro seg hseg a ha
    simp only [splitOnChar, List.mem_singleton] at hseg
    subst hseg
    simp at ha
  | b :: as => by
    intro seg hseg a ha
    simp only [splitOnChar] at hseg
    by_cases h : b = c
    · rw [if_pos h] at hseg
      rcases List.mem_cons.mp hseg with h1 | h1
      · subst h1
        simp at ha
      · exact splitOnChar_no_sep c as seg h1 a ha
    · rw [if_neg h] at hseg
      obtain ⟨h0, t0, he⟩ := List.exists_cons_of_ne_nil (splitOnChar_ne_nil c as)
      rw [he] at hseg
      rcases List.mem_cons.mp hseg with h1 | h1
      · subst h1
        rcases List.mem_cons.mp ha with h2 | h2
        · subst h2
          exact h
        · exact splitOnChar_no_sep c as h0 (by rw [he]; exact List.mem_cons_self h0 t0) a h2
      · exact splitOnChar_no_sep c as seg (by rw [he]; exact List.mem_cons.mpr (Or.inr h1)) a ha

theorem joinWith_append_singleton (c : Char) :
    ∀ (A : List Str) (x : Str), A ≠ [] →
      joinWith c (A ++ [x]) = joinWith c A ++ c :: x
  | [], _, h => absurd rfl h
  | [a], _, _ => rfl
  | a :: b :: A, x, _ => by
    have hIH := joinWith_append_singleton c (b :: A) x (by simp)
    calc joinWith c ((a :: b :: A) ++ [x])
        = a ++ c :: joinWith c ((b :: A) ++ [x]) := rfl
      _ = a ++ c :: (joinWith c (b :: A) ++ c :: x) := by rw [hIH]
      _ = (a ++ c :: joinWith c (b :: A)) ++ c :: x := by simp

/-- If a join over the separator is empty while the list is non-empty, the
list is the singleton empty string. -/
theorem joinWith_eq_nil (c : Char) :
    ∀ A : List Str, A ≠ [] → joinWith c A = [] → A = [[]]
  | [], h, _ => absurd rfl h
  | [a], _, hj => by
    rw [joinWith] at hj
    rw [hj]
  | a :: b :: A, _, hj => by
    rw [joinWith] at hj
    exact absurd hj (by simp)

theorem rstripChar_decomp (c : Char) (s : Str) :
    ∃ m : Nat, s = rstripChar c s ++ List.replicate m c ∧
      (s.getLast? = some c → 1 ≤ m) := by
  refine ⟨(s.reverse.takeWhile (fun a => a == c)).length, ?_, ?_⟩
  · conv_lhs => rw [← s.reverse_reverse,
      ← List.takeWhile_append_dropWhile (fun a => a == c) s.reverse]
    rw [List.reverse_append]
    congr 1
    apply List.eq_replicate_iff.mpr
    constructor
    · rw [List.length_reverse]
    · intro b hb
      rw [List.mem_reverse] at hb
      have hp := List.mem_takeWhile_imp hb
      exact beq_iff_eq.mp hp
  · intro hlast
    have hh : s.reverse.head? = some c := by
      rw [List.head?_reverse]
      exact hlast
    cases hr : s.reverse with
    | nil =>
      rw [hr] at hh
      exact absurd hh (by simp)
    | cons b t =>
      rw [hr] at hh
      have hb : b = c := by simpa using hh
      rw [List.takeWhile_cons, if_pos (by simp [hb])]
      simp

/-- The key disjointness fact behind folder rename: under the claim's
side conditions, no key under the computed new prefix lies under the old
prefix. -/
theorem rename_no_old_under_new (old_path new_name : Str)
    (hfolder : old_path.getLast? = some '/')
    (hslash : ∀ a ∈ new_name, a ≠ '/')
    (hnn : new_name ≠ [])
    (hdiff : new_name ≠ (splitOnChar '/' (rstripChar '/' old_path)).getLastD []) :
    ∀ t : Str, ¬ (old_path <+: (renameNewPath old_path new_name ++ ['/']) ++ t) := by
  intro t h
  set R := rstripChar '/' old_path with hRdef
  set parts := splitOnChar '/' R with hpartsdef
  set nm := parts.getLastD [] with hnmdef
  set par := joinWith '/' parts.dropLast with hpardef
  have hparts_ne : parts ≠ [] := splitOnChar_ne_nil '/' R
  have hname_eq : nm = parts.getLast hparts_ne := by
    rw [hnmdef, List.getLastD_eq_getLast?, List.getLast?_eq_getLast _ hparts_ne]
    rfl
  have hsegfree : ∀ a ∈ nm, a ≠ '/' := by
    rw [hname_eq]
    exact splitOnChar_no_sep '/' R _ (List.getLast_mem hparts_ne)
  have hdiff' : nm ≠ new_name := fun he => hdiff he.symm
  have hparts_decomp : parts.dropLast ++ [nm] = parts := by
    rw [hname_eq]
    exact List.dropLast_append_getLast hparts_ne
  obtain ⟨m, hdm, hm1⟩ := rstripChar_decomp '/' old_path
  rw [← hRdef] at hdm
  have hm := hm1 hfolder
  obtain ⟨m', rfl⟩ : ∃ m', m = m' + 1 := ⟨m - 1, (Nat.succ_pred_eq_of_pos hm).symm⟩
  have hnp : renameNewPath old_path new_name =
      if par ≠ [] then par ++ '/' :: new_name else new_name := by
    rw [renameNewPath, ← hRdef, ← hpartsdef, ← hpardef]
  by_cases hpar : par ≠ []
  · have hdl_ne : parts.dropLast ≠ [] := by
      intro hdl
      exact hpar (by rw [hpardef, hdl]; rfl)
    have hR2 : R = par ++ '/' :: nm := by
      conv_lhs => rw [← joinWith_splitOnChar '/' R, ← hpartsdef, ← hparts_decomp]
      rw [joinWith_append_singleton '/' parts.dropLast nm hdl_ne, ← hpardef]
    have hnp2 : renameNewPath old_path new_name ++ ['/'] ++ t =
        (par ++ ['/']) ++ (new_name ++ '/' :: t) := by
      rw [hnp, if_pos hpar]
      simp
    have hold2 : old_path = (par ++ ['/']) ++ (nm ++ '/' :: List.replicate m' '/') := by
      rw [hdm, hR2, List.replicate_succ]
      simp
    rw [hnp2] at h
    rw [hold2] at h
    rw [List.prefix_append_right_inj] at h
    exact no_prefix_names nm new_name hsegfree hslash hdiff' _ t h
  · rw [not_ne_iff] at hpar
    have hnp2 : renameNewPath old_path new_name ++ ['/'] ++ t = new_name ++ '/' :: t := by
      rw [hnp, if_neg (by rw [not_ne_iff]; exact hpar)]
      simp
    rw [hnp2] at h
    by_cases hdl : parts.dropLast = []
    · have hsingle : parts = [nm] := by
        rw [← hparts_decomp, hdl]
        rfl
      have hR2 : R = nm := by
        conv_lhs => rw [← joinWith_splitOnChar '/' R, ← hpartsdef, hsingle]
        rfl
      have hold2 : old_path = nm ++ '/' :: List.replicate m' '/' := by
        rw [hdm, hR2, List.replicate_succ]
      rw [hold2] at h
      exact no_prefix_names nm new_name hsegfree hslash hdiff' _ t h
    · have hdl2 : parts.dropLast = [[]] := joinWith_eq_nil '/' parts.dropLast hdl hpar
      have hdouble : parts = [[], nm] := by
        rw [← hparts_decomp, hdl2]
        rfl
      have hR2 : R = '/' :: nm := by
        conv_lhs => rw [← joinWith_splitOnChar '/' R, ← hpartsdef, hdouble]
        rfl
      have hold2 : old_path = '/' :: (nm ++ List.replicate (m' + 1) '/') := by
        rw [hdm, hR2]
        rfl
      rw [hold2] at h
      obtain ⟨b, nn, rfl⟩ := List.exists_cons_of_ne_nil hnn
      rw [List.cons_append, List.cons_prefix_cons] at h
      exact hslash b (by simp) h.1.symm

/-! ### C2: the rename loop -/

theorem replaceFirst_of_pre {k old np : Str} (h : old <+: k) :
    replaceFirst k old np = np ++ k.drop old.length := by
  rw [replaceFirst.eq_def, if_pos (isPrefixOf_iff.mpr h)]

theorem fold_rename_frame (old np : Str) :
    ∀ (l : List Str) (st : S3Store) (x : Str),
      (∀ k ∈ l, old <+: k) →
      (∀ k ∈ l, x ≠ k ∧ x ≠ movedKey old np k) →
      getObj (l.foldl (rename_step old np) st) x = getObj st x
  | [], _, _, _, _ => rfl
  | k :: rest, st, x, hold, hx => by
    rw [List.foldl_cons]
    have hk := hold k (List.mem_cons_self k rest)
    obtain ⟨hx1, hx2⟩ := hx k (List.mem_cons_self k rest)
    rw [fold_rename_frame old np rest _ x (fun k' h => hold k' (List.mem_cons_of_mem k h))
      (fun k' h => hx k' (List.mem_cons_of_mem k h))]
    rw [rename_step, replaceFirst_of_pre hk]
    rw [getObj_delete_ne _ hx1]
    exact getObj_copy_ne _ k hx2

/-- Invariant proof for the folder-rename loop: starting from a store whose
keys under the old prefix are exactly the snapshot `l`, after the loop every
snapshot key has moved — with its stored object intact — to its rewritten
key, and nothing remains under the old prefix. -/
theorem fold_rename_main (old np : Str) (s : S3Store)
    (hF1 : ∀ t, ¬ (old <+: np ++ t)) :
    ∀ (l : List Str) (st : S3Store),
      l.Nodup →
      (∀ k ∈ l, old <+: k) →
      (∀ k ∈ l, getObj st k = getObj s k ∧ (getObj s k).isSome) →
      (∀ x, old <+: x → (getObj st x).isSome → x ∈ l) →
      (∀ k ∈ l, getObj (l.foldl (rename_step old np) st) (movedKey old np k) =
          (getObj s k).map (fun o => { o with key := movedKey old np k })) ∧
      (∀ x, old <+: x → getObj (l.foldl (rename_step old np) st) x = none) := by
  intro l
  induction l with
  | nil =>
    intro st _ _ _ hcov
    refine ⟨fun k hk => absurd hk (List.not_mem_nil k), ?_⟩
    intro x hx
    cases hg : getObj st x with
    | none => exact hg
    | some o => exact absurd (hcov x hx (by rw [hg]; rfl)) (List.not_mem_nil x)
  | cons k rest ih =>
    intro st hnd hold hbod hcov
    obtain ⟨hknr, hndr⟩ := List.nodup_cons.mp hnd
    have hk_old : old <+: k := hold k (List.mem_cons_self k rest)
    obtain ⟨hbk, hsk⟩ := hbod k (List.mem_cons_self k rest)
    obtain ⟨o, ho⟩ := Option.isSome_iff_exists.mp hsk
    have hmoved_not_old : ∀ k' : Str, ¬ (old <+: movedKey old np k') := by
      intro k' hc
      exact hF1 (k'.drop old.length) hc
    have hmoved_ne_k : movedKey old np k ≠ k := by
      intro he
      rw [← he] at hk_old
      exact hmoved_not_old k hk_old
    set st1 := rename_step old np st k with hst1def
    have hst1_eq : st1 = delete_key (copy_object st k (movedKey old np k)) k := by
      rw [hst1def, rename_step, replaceFirst_of_pre hk_old]
      rfl
    have hst1_moved : getObj st1 (movedKey old np k) =
        some { o with key := movedKey old np k } := by
      rw [hst1_eq, getObj_delete_ne _ hmoved_ne_k]
      exact getObj_copy_dst (by rw [hbk, ho])
    have hst1_k : getObj st1 k = none := by
      rw [hst1_eq]
      exact getObj_delete_self _ k
    have hst1_frame : ∀ x, x ≠ k → x ≠ movedKey old np k → getObj st1 x = getObj st x := by
      intro x h1 h2
      rw [hst1_eq, getObj_delete_ne _ h1]
      exact getObj_copy_ne _ k h2
    have hold' : ∀ k' ∈ rest, old <+: k' := fun k' h => hold k' (List.mem_cons_of_mem k h)
    have hbod' : ∀ k' ∈ rest, getObj st1 k' = getObj s k' ∧ (getObj s k').isSome := by
      intro k' hk'
      have h1 : k' ≠ k := fun he => hknr (he ▸ hk')
      have h2 : k' ≠ movedKey old np k := by
        intro he
        exact hmoved_not_old k (he ▸ hold' k' hk')
      rw [hst1_frame k' h1 h2]
      exact hbod k' (List.mem_cons_of_mem k hk')
    have hcov' : ∀ x, old <+: x → (getObj st1 x).isSome → x ∈ rest := by
      intro x hx hsome
      by_cases h1 : x = k
      · rw [h1, hst1_k] at hsome
        exact absurd hsome (by simp)
      · have h2 : x ≠ movedKey old np k := by
          intro he
          exact hmoved_not_old k (he ▸ hx)
        rw [hst1_frame x h1 h2] at hsome
        rcases List.mem_cons.mp (hcov x hx hsome) with he | hm
        · exact absurd he h1
        · exact hm
    obtain ⟨ihA, ihB⟩ := ih st1 hndr hold' hbod' hcov'
    rw [List.foldl_cons, ← hst1def]
    constructor
    · intro k' hk'
      rcases List.mem_cons.mp hk' with he | hm
      · subst he
        rw [fold_rename_frame old np rest st1 (movedKey old np k') hold' ?_]
        · rw [hst1_moved, ho]
          rfl
        · intro k'' h''
          constructor
          · intro he2
            exact hmoved_not_old k' (by rw [he2]; exact hold' k'' h'')
          · intro he2
            have heq := movedKey_inj hk_old (hold' k'' h'') he2
            rw [heq] at hknr
            exact hknr h''
      · exact ihA k' hm
    · intro x hx
      exact ihB x hx

/-- C2 (amended): for every folder rename whose new name is a non-empty
plain segment (contains no `'/'`) different from the folder's current name:
the computed sibling path is the parent of the old key joined with the new
name (slash-terminated), and afterwards every child object that existed
under the old prefix exists — with identical suffix, size and timestamp —
under the new prefix, and no key remains under the old prefix.  Without
those side conditions the claim fails (see the counterexample, where the
new name contains a slash and a key remains under the old prefix). -/
theorem c2_rename_folder (s : S3Store) (old_path new_name : Str)
    (hnodup : (keysOf s).Nodup)
    (hfolder : old_path.getLast? = some '/')
    (hslash : ∀ a ∈ new_name, a ≠ '/')
    (hnn : new_name ≠ [])
    (hdiff : new_name ≠ (splitOnChar '/' (rstripChar '/' old_path)).getLastD []) :
    (∀ o ∈ s, old_path <+: o.key →
      getObj (rename_object s old_path new_name)
          (renamedChildKey old_path new_name o.key) =
        some { o with key := renamedChildKey old_path new_name o.key }) ∧
    (∀ x : Str, old_path <+: x →
      getObj (rename_object s old_path new_name) x = none) := by
  have hF1 : ∀ t, ¬ (old_path <+: (renameNewPath old_path new_name ++ ['/']) ++ t) :=
    rename_no_old_under_new old_path new_name hfolder hslash hnn hdiff
  have hro : rename_object s old_path new_name =
      (keysUnder s old_path).foldl
        (rename_step old_path (renameNewPath old_path new_name ++ ['/'])) s := by
    simp only [rename_object]
    rw [if_pos hfolder]
  have hndl : (keysUnder s old_path).Nodup := by
    have hsub : List.Sublist
        ((s.filter (fun o => old_path.isPrefixOf o.key)).map S3Obj.key)
        (s.map S3Obj.key) := (List.filter_sublist s).map S3Obj.key
    exact hnodup.sublist hsub
  have hold : ∀ k ∈ keysUnder s old_path, old_path <+: k := by
    intro k hk
    rw [keysUnder, objectsUnder] at hk
    obtain ⟨o, hof, rfl⟩ := List.mem_map.mp hk
    exact isPrefixOf_iff.mp (List.mem_filter.mp hof).2
  have hbod : ∀ k ∈ keysUnder s old_path,
      getObj s k = getObj s k ∧ (getObj s k).isSome := by
    intro k hk
    refine ⟨rfl, (getObj_isSome_iff s k).mpr ?_⟩
    rw [keysUnder, objectsUnder] at hk
    obtain ⟨o, hof, rfl⟩ := List.mem_map.mp hk
    exact List.mem_map.mpr ⟨o, (List.mem_filter.mp hof).1, rfl⟩
  have hcov : ∀ x, old_path <+: x → (getObj s x).isSome → x ∈ keysUnder s old_path := by
    intro x hx hsome
    obtain ⟨o, hos, rfl⟩ := List.mem_map.mp ((getObj_isSome_iff s x).mp hsome)
    rw [keysUnder, objectsUnder]
    exact List.mem_map.mpr ⟨o, List.mem_filter.mpr ⟨hos, isPrefixOf_iff.mpr hx⟩, rfl⟩
  obtain ⟨A, B⟩ := fold_rename_main old_path (renameNewPath old_path new_name ++ ['/'])
    s hF1 (keysUnder s old_path) s hndl hold hbod hcov
  rw [hro]
  simp only [renamedChildKey]
  constructor
  · intro o hos hpre
    have hkm : o.key ∈ keysUnder s old_path := by
      rw [keysUnder, objectsUnder]
      exact List.mem_map.mpr ⟨o, List.mem_filter.mpr ⟨hos, isPrefixOf_iff.mpr hpre⟩, rfl⟩
    have h2 := A o.key hkm
    rw [getObj_of_mem_nodup hnodup hos] at h2
    exact h2
  · exact B

/-- The store for the C2 witness: a folder with a nested child, plus an
unrelated sibling object. -/
def c2Store : S3Store :=
  [⟨"streamlit-app/docs/a.txt".data, 5, "2024-01-01 00:00:00".data⟩,
   ⟨"streamlit-app/docs/sub/b.txt".data, 6, "2024-01-02 00:00:00".data⟩,
   ⟨"streamlit-app/other.txt".data, 7, "2024-01-03 00:00:00".data⟩]

/-- C2 witness: renaming the folder `docs` to `files` at a concrete store —
a child reappears under the new prefix with its content, and its old key is
gone. -/
theorem c2_witness :
    (keysOf c2Store).Nodup ∧
      getObj (rename_object c2Store "streamlit-app/docs/".data "files".data)
          "streamlit-app/files/a.txt".data =
        some ⟨"streamlit-app/files/a.txt".data, 5, "2024-01-01 00:00:00".data⟩ ∧
      getObj (rename_object c2Store "streamlit-app/docs/".data "files".data)
          "streamlit-app/docs/a.txt".data = none := by
  refine ⟨by decide, ?_, ?_⟩
  · have h := (c2_rename_folder c2Store "streamlit-app/docs/".data "files".data
      (by decide) (by decide) (by decide) (by decide) (by decide)).1
      ⟨"streamlit-app/docs/a.txt".data, 5, "2024-01-01 00:00:00".data⟩
      (by decide) (by decide)
    have e : renamedChildKey "streamlit-app/docs/".data "files".data
        "streamlit-app/docs/a.txt".data = "streamlit-app/files/a.txt".data := by decide
    rw [e] at h
    exact h
  · exact (c2_rename_folder c2Store "streamlit-app/docs/".data "files".data
      (by decide) (by decide) (by decide) (by decide) (by decide)).2
      "streamlit-app/docs/a.txt".data (by decide)

/-- C2 counterexample: the claim as stated quantifies over every rename that
completes without a fault, but with a new name containing a slash
(`"a/b"`) the rewritten child key `streamlit-app/a/b/x.txt` still lies
under the old prefix `streamlit-app/a/` — a key remains under the old
prefix even though the operation reports success. -/
theorem c2_counterexample :
    ("streamlit-app/a/".data : Str).getLast? = some '/' ∧
      keysOf (rename_object
          [⟨"streamlit-app/a/x.txt".data, 7, "2024-01-01 00:00:00".data⟩]
          "streamlit-app/a/".data "a/b".data) =
        ["streamlit-app/a/b/x.txt".data] ∧
      "streamlit-app/a/".data <+: "streamlit-app/a/b/x.txt".data := by
  decide
